import Mathlib

/-!
Verification of the Dual Marching Cubes tessellator
(`src/tessellation/dual_marching_cubes.rs`).

Shallow embedding conventions:
* Rust `Float` (f64) is modelled as `ℚ`; every arithmetic operation used by
  the tessellator core (add, sub, mul, div, abs, signum, comparisons) is
  exact on the values the claims are about, so the embedding is faithful on
  those operations.
* `Point` and `Vector` (cgmath) are both modelled as `Vec3`.
* A Rust panic (failed `assert!`, `usize` underflow, out-of-bounds index)
  is modelled as `Option.none`; fuel-indexed recursion models loops and
  recursion, `none` standing for a run that has not finished within the
  given fuel.
* The implicit-field object (`approx_value`, `normal`) and the LAPACK SVD
  are external collaborators of the crate; they are modelled as oracle
  parameters (`f`, `nrm`, `svd`).
-/

/-- 3d vector over exact rationals, modelling both cgmath `Point` and
`Vector` as used by the tessellator. -/
@[ext]
structure Vec3 where
  x : ℚ
  y : ℚ
  z : ℚ
deriving DecidableEq, Repr

def vadd (u v : Vec3) : Vec3 := ⟨u.x + v.x, u.y + v.y, u.z + v.z⟩

def vsub (u v : Vec3) : Vec3 := ⟨u.x - v.x, u.y - v.y, u.z - v.z⟩

def smulV (q : ℚ) (v : Vec3) : Vec3 := ⟨q * v.x, q * v.y, q * v.z⟩

/-- `cgmath` dot product. -/
def dotV (u v : Vec3) : ℚ := u.x * v.x + u.y * v.y + u.z * v.z

instance : Add Vec3 := ⟨vadd⟩

instance : Sub Vec3 := ⟨vsub⟩

instance : SMul ℚ Vec3 := ⟨smulV⟩

instance : Inhabited Vec3 := ⟨⟨0, 0, 0⟩⟩

@[simp] theorem vadd_x (u v : Vec3) : (u + v).x = u.x + v.x := rfl

@[simp] theorem vadd_y (u v : Vec3) : (u + v).y = u.y + v.y := rfl

@[simp] theorem vadd_z (u v : Vec3) : (u + v).z = u.z + v.z := rfl

@[simp] theorem vsub_x (u v : Vec3) : (u - v).x = u.x - v.x := rfl

@[simp] theorem vsub_y (u v : Vec3) : (u - v).y = u.y - v.y := rfl

@[simp] theorem vsub_z (u v : Vec3) : (u - v).z = u.z - v.z := rfl

@[simp] theorem smulV_x (q : ℚ) (v : Vec3) : (q • v).x = q * v.x := rfl

@[simp] theorem smulV_y (q : ℚ) (v : Vec3) : (q • v).y = q * v.y := rfl

@[simp] theorem smulV_z (q : ℚ) (v : Vec3) : (q • v).z = q * v.z := rfl

/-- Rust `f64::signum` restricted to non-NaN inputs: `-1` for negative
values, `1` for everything else (Rust maps `+0.0` to `1.0`). -/
def sgn (q : ℚ) : ℚ := if q < 0 then -1 else 1

/-- A tangent plane of the surface: a zero-crossing point `p` on a grid
edge and the field normal `n` there (struct `Plane` in the source). -/
structure Plane where
  p : Vec3
  n : Vec3
deriving DecidableEq, Repr

instance : Inhabited Plane := ⟨⟨⟨0, 0, 0⟩, ⟨0, 0, 0⟩⟩⟩

/-- `p` lies on the closed segment from `a` to `b`. -/
def onSeg (a b p : Vec3) : Prop := ∃ t : ℚ, 0 ≤ t ∧ t ≤ 1 ∧ p = a + t • (b - a)

/-- `DualMarchingCubes::find_zero`, fuel-indexed.  `f` is the field oracle
(`approx_value` with the step `h` fixed), `nrm` the normal oracle, `res`
the resolution `h`.  Result `none` means the run did not finish (the
recursion is still going when the fuel is exhausted, or `assert!(a != b)`
fired); `some none` models the `None` return, `some (some pl)` the
`Some(plane)` return.  `PRECISION = 0.01` appears as `1/100`. -/
def findZero (f : Vec3 → ℚ) (nrm : Vec3 → Vec3) (res : ℚ) :
    ℕ → Vec3 → ℚ → Vec3 → ℚ → Option (Option Plane)
  | 0, _, _, _, _ => none
  | fuel + 1, a, av, b, bv =>
    if a = b then none
    else if sgn av = sgn bv then some none
    else if |av| < 1 / 100 * res then some (some ⟨a, nrm a⟩)
    else if |bv| < 1 / 100 * res then some (some ⟨b, nrm b⟩)
    else
      if sgn av ≠ sgn (f (a + (|av| / |bv - av|) • (b - a))) then
        findZero f nrm res fuel a av (a + (|av| / |bv - av|) • (b - a))
          (f (a + (|av| / |bv - av|) • (b - a)))
      else
        findZero f nrm res fuel (a + (|av| / |bv - av|) • (b - a))
          (f (a + (|av| / |bv - av|) • (b - a))) b bv

theorem findZero_self (f : Vec3 → ℚ) (nrm : Vec3 → Vec3) (res : ℚ)
    (fuel : ℕ) (a : Vec3) (av bv : ℚ) :
    findZero f nrm res fuel a av a bv = none := by
  cases fuel <;> simp [findZero]

theorem sgn_ne_cases {u v : ℚ} (h : sgn u ≠ sgn v) :
    (u < 0 ∧ 0 ≤ v) ∨ (0 ≤ u ∧ v < 0) := by
  unfold sgn at h
  by_cases hu : u < 0 <;> by_cases hv : v < 0 <;>
    simp [hu, hv] at h ⊢ <;> first | exact le_of_not_lt hv | exact le_of_not_lt hu

theorem abs_sub_of_sgn_ne {u v : ℚ} (h : sgn u ≠ sgn v) : |v - u| = |u| + |v| := by
  rcases sgn_ne_cases h with ⟨hu, hv⟩ | ⟨hu, hv⟩
  · rw [abs_of_nonneg (by linarith), abs_of_neg hu, abs_of_nonneg hv]; ring
  · rw [abs_of_nonpos (by linarith), abs_of_nonneg hu, abs_of_neg hv]; ring

theorem onSeg_left (a b : Vec3) : onSeg a b a :=
  ⟨0, le_refl 0, by norm_num, by ext <;> simp⟩

theorem onSeg_right (a b : Vec3) : onSeg a b b :=
  ⟨1, by norm_num, le_refl 1, by ext <;> simp⟩

theorem onSeg_comp_left {a b p : Vec3} (t₀ : ℚ) (h0 : 0 ≤ t₀) (h1 : t₀ ≤ 1)
    (hp : onSeg a (a + t₀ • (b - a)) p) : onSeg a b p := by
  obtain ⟨s, hs0, hs1, hseq⟩ := hp
  refine ⟨s * t₀, mul_nonneg hs0 h0, by nlinarith, ?_⟩
  rw [hseq]; ext <;> simp <;> ring

theorem onSeg_comp_right {a b p : Vec3} (t₀ : ℚ) (h0 : 0 ≤ t₀) (h1 : t₀ ≤ 1)
    (hp : onSeg (a + t₀ • (b - a)) b p) : onSeg a b p := by
  obtain ⟨s, hs0, hs1, hseq⟩ := hp
  refine ⟨t₀ + s * (1 - t₀), by nlinarith, by nlinarith, ?_⟩
  rw [hseq]; ext <;> simp <;> ring

theorem vec_cancel {a v : Vec3} (h : a + v = a) : v = ⟨0, 0, 0⟩ := by
  have hx := congrArg Vec3.x h
  have hy := congrArg Vec3.y h
  have hz := congrArg Vec3.z h
  simp at hx hy hz
  ext <;> assumption

theorem seg_pt_ne_left {a b : Vec3} (hab : a ≠ b) {t : ℚ} (ht : t ≠ 0) :
    a + t • (b - a) ≠ a := by
  intro h
  apply hab
  have h0 : t • (b - a) = (⟨0, 0, 0⟩ : Vec3) := vec_cancel h
  have hx := congrArg Vec3.x h0
  have hy := congrArg Vec3.y h0
  have hz := congrArg Vec3.z h0
  simp at hx hy hz
  ext
  · have := hx.resolve_left ht; linarith
  · have := hy.resolve_left ht; linarith
  · have := hz.resolve_left ht; linarith

theorem seg_pt_ne_right {a b : Vec3} (hab : a ≠ b) {t : ℚ} (ht : t ≠ 1) :
    a + t • (b - a) ≠ b := by
  intro h
  apply hab
  have hx := congrArg Vec3.x h
  have hy := congrArg Vec3.y h
  have hz := congrArg Vec3.z h
  simp at hx hy hz
  have ht' : 1 - t ≠ 0 := sub_ne_zero_of_ne (Ne.symm ht)
  ext
  · have h1 : (1 - t) * (b.x - a.x) = 0 := by linear_combination -hx
    have := (mul_eq_zero.1 h1).resolve_left ht'; linarith
  · have h1 : (1 - t) * (b.y - a.y) = 0 := by linear_combination -hy
    have := (mul_eq_zero.1 h1).resolve_left ht'; linarith
  · have h1 : (1 - t) * (b.z - a.z) = 0 := by linear_combination -hz
    have := (mul_eq_zero.1 h1).resolve_left ht'; linarith

/-- Claim C5, amended: partial correctness of `find_zero`.  Under the
invariants that the source `debug_assert!`s state (`av`/`bv` are the field
values at `a`/`b`) and `a ≠ b`: when the recursion finishes within any
fuel, it returns `None` exactly when the endpoint values have equal sign,
and a returned plane has its point on the closed segment `[a, b]`, field
value below `PRECISION * res` in absolute value, and the field's normal
oracle evaluated at that point. -/
theorem findZero_correct (f : Vec3 → ℚ) (nrm : Vec3 → Vec3) {res : ℚ} (hres : 0 < res)
    (fuel : ℕ) (a : Vec3) (av : ℚ) (b : Vec3) (bv : ℚ)
    (hav : av = f a) (hbv : bv = f b) (hab : a ≠ b) :
    (sgn av = sgn bv → 0 < fuel → findZero f nrm res fuel a av b bv = some none) ∧
    (sgn av ≠ sgn bv → findZero f nrm res fuel a av b bv ≠ some none) ∧
    (∀ pl : Plane, findZero f nrm res fuel a av b bv = some (some pl) →
      onSeg a b pl.p ∧ |f pl.p| < 1 / 100 * res ∧ pl.n = nrm pl.p) := by
  induction fuel generalizing a av b bv with
  | zero =>
    refine ⟨fun _ h => absurd h (lt_irrefl 0), fun _ => ?_, fun pl h => ?_⟩
    · simp [findZero]
    · simp [findZero] at h
  | succ n ih =>
    rw [findZero, if_neg hab]
    by_cases hsgn : sgn av = sgn bv
    · rw [if_pos hsgn]
      exact ⟨fun _ _ => rfl, fun h => absurd hsgn h, fun pl h => by simp at h⟩
    · rw [if_neg hsgn]
      by_cases ha : |av| < 1 / 100 * res
      · rw [if_pos ha]
        refine ⟨fun h => absurd h hsgn, by simp, fun pl h => ?_⟩
        have hpl : pl = ⟨a, nrm a⟩ := by simpa using h.symm
        subst hpl
        refine ⟨onSeg_left a b, ?_, rfl⟩
        show |f a| < 1 / 100 * res
        rw [← hav]; exact ha
      · rw [if_neg ha]
        by_cases hb : |bv| < 1 / 100 * res
        · rw [if_pos hb]
          refine ⟨fun h => absurd h hsgn, by simp, fun pl h => ?_⟩
          have hpl : pl = ⟨b, nrm b⟩ := by simpa using h.symm
          subst hpl
          refine ⟨onSeg_right a b, ?_, rfl⟩
          show |f b| < 1 / 100 * res
          rw [← hbv]; exact hb
        · rw [if_neg hb]
          have hprec : 0 < 1 / 100 * res := by positivity
          have hav0 : 0 < |av| := lt_of_lt_of_le hprec (le_of_not_lt ha)
          have hbv0 : 0 < |bv| := lt_of_lt_of_le hprec (le_of_not_lt hb)
          have habs : |bv - av| = |av| + |bv| := abs_sub_of_sgn_ne hsgn
          have hden : (0 : ℚ) < |bv - av| := by rw [habs]; linarith
          have ht0 : 0 ≤ |av| / |bv - av| := div_nonneg (abs_nonneg _) (abs_nonneg _)
          have ht0' : |av| / |bv - av| ≠ 0 := by positivity
          have ht1 : |av| / |bv - av| < 1 := by
            rw [div_lt_one hden, habs]; linarith
          have hnea : a + (|av| / |bv - av|) • (b - a) ≠ a :=
            seg_pt_ne_left hab ht0'
          have hneb : a + (|av| / |bv - av|) • (b - a) ≠ b :=
            seg_pt_ne_right hab (ne_of_lt ht1)
          by_cases hrec : sgn av ≠ sgn (f (a + (|av| / |bv - av|) • (b - a)))
          · rw [if_pos hrec]
            obtain ⟨_, ih2, ih3⟩ :=
              ih a av (a + (|av| / |bv - av|) • (b - a))
                (f (a + (|av| / |bv - av|) • (b - a))) hav rfl (Ne.symm hnea)
            refine ⟨fun h => absurd h hsgn, fun _ => ih2 hrec, fun pl h => ?_⟩
            obtain ⟨hseg, hval, hnrm⟩ := ih3 pl h
            exact ⟨onSeg_comp_left _ ht0 (le_of_lt ht1) hseg, hval, hnrm⟩
          · rw [if_neg hrec]
            push_neg at hrec
            have hsgn2 : sgn (f (a + (|av| / |bv - av|) • (b - a))) ≠ sgn bv := by
              rw [← hrec]; exact hsgn
            obtain ⟨_, ih2, ih3⟩ :=
              ih (a + (|av| / |bv - av|) • (b - a))
                (f (a + (|av| / |bv - av|) • (b - a))) b bv rfl hbv hneb
            refine ⟨fun h => absurd h hsgn, fun _ => ih2 hsgn2, fun pl h => ?_⟩
            obtain ⟨hseg, hval, hnrm⟩ := ih3 pl h
            exact ⟨onSeg_comp_right _ ht0 (le_of_lt ht1) hseg, hval, hnrm⟩

/-- An adversarial field oracle: value `-1` at the single point `(1,0,0)`
and `1` everywhere else.  Its sign flips between the segment endpoints,
but every interpolated sample has the same sign as the left endpoint. -/
def cexField (v : Vec3) : ℚ := if v = ⟨1, 0, 0⟩ then -1 else 1

def cexNrm (_ : Vec3) : Vec3 := ⟨0, 0, 1⟩

/-- The `find_zero` recursion on the given arguments never finishes, for
any amount of fuel. -/
def findZeroDiverges (f : Vec3 → ℚ) (nrm : Vec3 → Vec3) (res : ℚ)
    (a : Vec3) (av : ℚ) (b : Vec3) (bv : ℚ) : Prop :=
  ∀ fuel : ℕ, findZero f nrm res fuel a av b bv = none

theorem cexField_run : ∀ (fuel : ℕ) (x : ℚ), x ≠ 1 →
    findZero cexField cexNrm 1 fuel ⟨x, 0, 0⟩ 1 ⟨1, 0, 0⟩ (-1) = none := by
  intro fuel
  induction fuel with
  | zero => intro x _; rfl
  | succ n ih =>
    intro x hx
    rw [findZero]
    rw [if_neg (show ¬((⟨x, 0, 0⟩ : Vec3) = ⟨1, 0, 0⟩) by
      simp only [Vec3.mk.injEq]; intro h; exact hx h.1)]
    rw [if_neg (show ¬(sgn 1 = sgn (-1)) by norm_num [sgn])]
    rw [if_neg (show ¬(|(1 : ℚ)| < 1 / 100 * 1) by norm_num)]
    rw [if_neg (show ¬(|(-1 : ℚ)| < 1 / 100 * 1) by norm_num)]
    have hnn : (⟨x, 0, 0⟩ : Vec3) + (|(1 : ℚ)| / |(-1) - 1|) • ((⟨1, 0, 0⟩ : Vec3) - ⟨x, 0, 0⟩)
        = ⟨(x + 1) / 2, 0, 0⟩ := by
      ext <;> simp
      norm_num
      ring
    rw [hnn]
    have hmid : ((x + 1) / 2 : ℚ) ≠ 1 := fun h => hx (by linarith)
    have hnv : cexField ⟨(x + 1) / 2, 0, 0⟩ = 1 := by
      unfold cexField
      rw [if_neg (show ¬((⟨(x + 1) / 2, 0, 0⟩ : Vec3) = ⟨1, 0, 0⟩) by
        simp only [Vec3.mk.injEq]; intro h; exact hmid h.1)]
    rw [hnv]
    rw [if_neg (show ¬(sgn 1 ≠ sgn 1) by simp)]
    exact ih _ hmid

/-- Claim C5, counterexample: on the concrete input `a = (0,0,0)`,
`b = (1,0,0)` with field values `1` and `-1` of opposite sign (the
`debug_assert!`ed invariants hold for the oracle `cexField`), `find_zero`
does not return at all — the secant recursion runs forever — so "otherwise
it returns Some Plane ..." is false as stated. -/
theorem c5_cex :
    findZeroDiverges cexField cexNrm 1 ⟨0, 0, 0⟩ 1 ⟨1, 0, 0⟩ (-1) ∧
    sgn (1 : ℚ) ≠ sgn (-1 : ℚ) ∧
    cexField ⟨0, 0, 0⟩ = 1 ∧ cexField ⟨1, 0, 0⟩ = -1 ∧
    (⟨0, 0, 0⟩ : Vec3) ≠ ⟨1, 0, 0⟩ := by
  refine ⟨fun fuel => cexField_run fuel 0 (by norm_num), by norm_num [sgn], ?_, ?_, ?_⟩
  · unfold cexField
    rw [if_neg (by simp only [Vec3.mk.injEq]; intro h; exact absurd h.1 (by norm_num))]
  · rfl
  · simp only [ne_eq, Vec3.mk.injEq]; intro h; exact absurd h.1 (by norm_num)

/-- The lattice point `bbox.min + h * (x, y, z)` sampled by the value-grid
loop of `try_tesselate`.  The source advances `p` by `p.x += res` etc.; over
exact rationals the accumulated sums equal these products. -/
def samplePt (bmin : Vec3) (res : ℚ) (xi yi zi : ℕ) : Vec3 :=
  ⟨bmin.x + res * xi, bmin.y + res * yi, bmin.z + res * zi⟩

/-- Runs `g` on the indices `i, i+1, ..., i+n-1` in order, collecting the
results, stopping at the first error — the shape of the early-returning
sampling loops in `try_tesselate`. -/
def collectFrom {α : Type} (g : ℕ → Except Vec3 α) : ℕ → ℕ → Except Vec3 (List α)
  | _, 0 => .ok []
  | i, n + 1 =>
    match g i with
    | .error e => .error e
    | .ok v =>
      match collectFrom g (i + 1) n with
      | .error e => .error e
      | .ok vs => .ok (v :: vs)

/-- One sample of the value grid: `val = f(p, h)`; `val == 0.` is the
retriable `Err` of `try_tesselate`. -/
def sampleAt (f : Vec3 → ℚ) (bmin : Vec3) (res : ℚ) (xi yi zi : ℕ) : Except Vec3 ℚ :=
  if f (samplePt bmin res xi yi zi) = 0 then .error (samplePt bmin res xi yi zi)
  else .ok (f (samplePt bmin res xi yi zi))

/-- The value-grid sampling phase of `try_tesselate`: `z`-major, then `y`,
then `x`, early-returning `Err` on the first exactly-zero sample. -/
def sampleGrid (f : Vec3 → ℚ) (bmin : Vec3) (res : ℚ) (d : ℕ × ℕ × ℕ) :
    Except Vec3 (List (List (List ℚ))) :=
  collectFrom (fun zi =>
    collectFrom (fun yi =>
      collectFrom (fun xi => sampleAt f bmin res xi yi zi) 0 d.1) 0 d.2.1) 0 d.2.2

theorem collectFrom_error_iff {α : Type} (g : ℕ → Except Vec3 α) :
    ∀ (n i : ℕ), (∃ e, collectFrom g i n = .error e) ↔
      ∃ k, k < n ∧ ∃ e, g (i + k) = .error e := by
  intro n
  induction n with
  | zero => intro i; simp [collectFrom]
  | succ m ih =>
    intro i
    constructor
    · rintro ⟨e, he⟩
      rw [collectFrom] at he
      cases hgi : g i with
      | error e' => exact ⟨0, Nat.succ_pos m, e', by simpa using hgi⟩
      | ok v =>
        rw [hgi] at he
        cases hrec : collectFrom g (i + 1) m with
        | error e2 =>
          obtain ⟨k, hk, e3, he3⟩ := (ih (i + 1)).1 ⟨e2, hrec⟩
          refine ⟨k + 1, Nat.succ_lt_succ hk, e3, ?_⟩
          rw [show i + (k + 1) = i + 1 + k by ring]
          exact he3
        | ok vs => rw [hrec] at he; simp at he
    · rintro ⟨k, hk, e, he⟩
      cases hgi : g i with
      | error e' => exact ⟨e', by rw [collectFrom, hgi]⟩
      | ok v =>
        cases k with
        | zero => rw [Nat.add_zero] at he; rw [hgi] at he; simp at he
        | succ k' =>
          have hk' : k' < m := Nat.lt_of_succ_lt_succ hk
          have he' : g (i + 1 + k') = .error e := by
            rw [show i + 1 + k' = i + (k' + 1) by ring]; exact he
          obtain ⟨e2, hrec⟩ := (ih (i + 1)).2 ⟨k', hk', e, he'⟩
          exact ⟨e2, by rw [collectFrom, hgi, hrec]⟩

theorem collectFrom_ok_mem {α : Type} (g : ℕ → Except Vec3 α) :
    ∀ (n i : ℕ) (l : List α), collectFrom g i n = .ok l →
      ∀ v ∈ l, ∃ k, k < n ∧ g (i + k) = .ok v := by
  intro n
  induction n with
  | zero =>
    intro i l hl v hv
    rw [collectFrom] at hl
    obtain rfl : ([] : List α) = l := by simpa using hl
    simp at hv
  | succ m ih =>
    intro i l hl v hv
    rw [collectFrom] at hl
    cases hgi : g i with
    | error e => rw [hgi] at hl; simp at hl
    | ok v0 =>
      rw [hgi] at hl
      cases hrec : collectFrom g (i + 1) m with
      | error e => rw [hrec] at hl; simp at hl
      | ok vs =>
        rw [hrec] at hl
        obtain rfl : v0 :: vs = l := by simpa using hl
        rcases hv with _ | hv'
        · exact ⟨0, Nat.succ_pos m, by rw [Nat.add_zero]; exact hgi⟩
        · obtain ⟨k, hk, hg⟩ := ih (i + 1) vs hrec v (by assumption)
          refine ⟨k + 1, Nat.succ_lt_succ hk, ?_⟩
          rw [show i + (k + 1) = i + 1 + k by ring]
          exact hg

theorem sampleAt_error_iff (f : Vec3 → ℚ) (bmin : Vec3) (res : ℚ) (xi yi zi : ℕ) :
    (∃ e, sampleAt f bmin res xi yi zi = .error e) ↔
      f (samplePt bmin res xi yi zi) = 0 := by
  unfold sampleAt
  by_cases h : f (samplePt bmin res xi yi zi) = 0 <;> simp [h]

theorem sampleAt_ok (f : Vec3 → ℚ) (bmin : Vec3) (res : ℚ) (xi yi zi : ℕ) (v : ℚ)
    (h : sampleAt f bmin res xi yi zi = .ok v) :
    v = f (samplePt bmin res xi yi zi) ∧ v ≠ 0 := by
  unfold sampleAt at h
  by_cases h0 : f (samplePt bmin res xi yi zi) = 0
  · rw [if_pos h0] at h; simp at h
  · rw [if_neg h0] at h
    obtain rfl : f (samplePt bmin res xi yi zi) = v := by simpa using h
    exact ⟨rfl, h0⟩

/-- Claim C4: the sampling phase of `try_tesselate` returns the retriable
error exactly when some lattice sample `f(bbox.min + h*(x,y,z), h)` is
exactly `0`, and on success every entry of the stored value grid is a
nonzero lattice sample. -/
theorem c4_sampler (f : Vec3 → ℚ) (bmin : Vec3) (res : ℚ) (d : ℕ × ℕ × ℕ) :
    ((∃ e, sampleGrid f bmin res d = .error e) ↔
      ∃ zi, zi < d.2.2 ∧ ∃ yi, yi < d.2.1 ∧ ∃ xi, xi < d.1 ∧
        f (samplePt bmin res xi yi zi) = 0) ∧
    (∀ G, sampleGrid f bmin res d = .ok G →
      ∀ plane ∈ G, ∀ row ∈ plane, ∀ v ∈ row,
        v ≠ 0 ∧ ∃ zi, zi < d.2.2 ∧ ∃ yi, yi < d.2.1 ∧ ∃ xi, xi < d.1 ∧
          v = f (samplePt bmin res xi yi zi)) := by
  constructor
  · unfold sampleGrid
    rw [collectFrom_error_iff]
    refine exists_congr fun zi => and_congr_right fun _ => ?_
    simp only [zero_add]
    rw [collectFrom_error_iff]
    refine exists_congr fun yi => and_congr_right fun _ => ?_
    simp only [zero_add]
    rw [collectFrom_error_iff]
    refine exists_congr fun xi => and_congr_right fun _ => ?_
    simp only [zero_add]
    exact sampleAt_error_iff f bmin res xi yi zi
  · intro G hG plane hplane row hrow v hv
    unfold sampleGrid at hG
    obtain ⟨zi, hzi, hGz⟩ := collectFrom_ok_mem _ _ _ _ hG plane hplane
    simp only [zero_add] at hGz
    obtain ⟨yi, hyi, hGy⟩ := collectFrom_ok_mem _ _ _ _ hGz row hrow
    simp only [zero_add] at hGy
    obtain ⟨xi, hxi, hGx⟩ := collectFrom_ok_mem _ _ _ _ hGy v hv
    simp only [zero_add] at hGx
    obtain ⟨hveq, hvne⟩ := sampleAt_ok _ _ _ _ _ _ _ hGx
    exact ⟨hvne, zi, hzi, yi, hyi, xi, hxi, hveq⟩

/-- Witness for `c4_sampler` at a concrete one-cell grid with the constant
field `1`. -/
theorem c4_sampler_witness :
    (1 : ℚ) ≠ 0 ∧ ∃ zi, zi < 1 ∧ ∃ yi, yi < 1 ∧ ∃ xi, xi < 1 ∧
      (1 : ℚ) = (fun _ : Vec3 => (1 : ℚ)) (samplePt ⟨0, 0, 0⟩ 1 xi yi zi) :=
  (c4_sampler (fun _ => 1) ⟨0, 0, 0⟩ 1 (1, 1, 1)).2 [[[1]]]
    (by norm_num [sampleGrid, collectFrom, sampleAt])
    [[1]] (by simp) [1] (by simp) 1 (by simp)

/-- Component access `v[i]` of cgmath points, `i < 3`. -/
def getC (v : Vec3) : Fin 3 → ℚ
  | ⟨0, _⟩ => v.x
  | ⟨1, _⟩ => v.y
  | ⟨2, _⟩ => v.z

/-- Component update `v[i] = q`. -/
def setC (v : Vec3) : Fin 3 → ℚ → Vec3
  | ⟨0, _⟩, q => ⟨q, v.y, v.z⟩
  | ⟨1, _⟩, q => ⟨v.x, q, v.z⟩
  | ⟨2, _⟩, q => ⟨v.x, v.y, q⟩

@[simp] theorem getC_setC_same (v : Vec3) (i : Fin 3) (q : ℚ) :
    getC (setC v i q) i = q := by
  match i with
  | ⟨0, _⟩ => rfl
  | ⟨1, _⟩ => rfl
  | ⟨2, _⟩ => rfl

theorem getC_setC_ne (v : Vec3) {i j : Fin 3} (h : j ≠ i) (q : ℚ) :
    getC (setC v i q) j = getC v j := by
  match i, j with
  | ⟨0, _⟩, ⟨0, _⟩ => exact absurd rfl h
  | ⟨0, _⟩, ⟨1, _⟩ => rfl
  | ⟨0, _⟩, ⟨2, _⟩ => rfl
  | ⟨1, _⟩, ⟨0, _⟩ => rfl
  | ⟨1, _⟩, ⟨1, _⟩ => exact absurd rfl h
  | ⟨1, _⟩, ⟨2, _⟩ => rfl
  | ⟨2, _⟩, ⟨0, _⟩ => rfl
  | ⟨2, _⟩, ⟨1, _⟩ => rfl
  | ⟨2, _⟩, ⟨2, _⟩ => exact absurd rfl h

/-- `DualMarchingCubes::qef`: `Q(p) = Σᵢ (nᵢ · (p − pᵢ))²`, folded exactly
as in the source. -/
def qef (planes : List Plane) (p : Vec3) : ℚ :=
  planes.foldl (fun sum pl => dotV pl.n (p - pl.p) * dotV pl.n (p - pl.p) + sum) 0

/-- The per-axis `while a[i] + PRECISION < b[i]` loop of
`binary_search_minimal_qef`, fuel-indexed; state `(a, b, ma, mb)` mirrors
the four mutable points of the source, and whole-point assignments
`b = mb` / `a = ma` are kept as such.  `none` models a run that has not
finished within the fuel. -/
def axisLoop (planes : List Plane) (i : Fin 3) :
    ℕ → Vec3 → Vec3 → Vec3 → Vec3 → Option (Vec3 × Vec3 × Vec3 × Vec3)
  | 0, a, b, ma, mb =>
    if getC a i + 1 / 100 < getC b i then none else some (a, b, ma, mb)
  | fuel + 1, a, b, ma, mb =>
    if getC a i + 1 / 100 < getC b i then
      if qef planes (setC ma i ((getC a i + getC b i) * (1 / 2))) <
          qef planes (setC mb i ((getC a i + getC b i) * (1 / 2) + 1 / 100 / 100)) then
        axisLoop planes i fuel a
          (setC mb i ((getC a i + getC b i) * (1 / 2) + 1 / 100 / 100))
          (setC ma i ((getC a i + getC b i) * (1 / 2)))
          (setC mb i ((getC a i + getC b i) * (1 / 2) + 1 / 100 / 100))
      else
        axisLoop planes i fuel
          (setC ma i ((getC a i + getC b i) * (1 / 2))) b
          (setC ma i ((getC a i + getC b i) * (1 / 2)))
          (setC mb i ((getC a i + getC b i) * (1 / 2) + 1 / 100 / 100))
    else some (a, b, ma, mb)

/-- One `for i in 0..3` iteration of `binary_search_minimal_qef`:
`a = result; b = result; b[i] += res - PRECISION*2; ma = a; mb = b;`
then the while loop, then `result[i] = ma[i]`. -/
def axisPass (fuel : ℕ) (planes : List Plane) (res : ℚ) (i : Fin 3)
    (result : Vec3) : Option Vec3 :=
  match axisLoop planes i fuel result
      (setC result i (getC result i + (res - 1 / 100 * 2))) result
      (setC result i (getC result i + (res - 1 / 100 * 2))) with
  | none => none
  | some (_, _, ma, _) => some (setC result i (getC ma i))

/-- `DualMarchingCubes::binary_search_minimal_qef`: start at
`bbox.min + (PRECISION + res*idx[i])` per axis and run the three axis
passes in order. -/
def binSearch (fuel : ℕ) (planes : List Plane) (bmin : Vec3) (res : ℚ)
    (idx : ℕ × ℕ × ℕ) : Option Vec3 :=
  (axisPass fuel planes res 0
      ⟨bmin.x + (1 / 100 + res * idx.1),
       bmin.y + (1 / 100 + res * idx.2.1),
       bmin.z + (1 / 100 + res * idx.2.2)⟩).bind fun r1 =>
    (axisPass fuel planes res 1 r1).bind fun r2 =>
      axisPass fuel planes res 2 r2

/-- `DualMarchingCubes::is_in_cell`: strict open-cube containment,
`0 < p[i] - bbox.min[i] - idx[i]*res < res` on every axis. -/
def isInCell (bmin : Vec3) (res : ℚ) (idx : ℕ × ℕ × ℕ) (p : Vec3) : Bool :=
  decide (0 < p.x - bmin.x - idx.1 * res ∧ p.x - bmin.x - idx.1 * res < res ∧
          0 < p.y - bmin.y - idx.2.1 * res ∧ p.y - bmin.y - idx.2.1 * res < res ∧
          0 < p.z - bmin.z - idx.2.2 * res ∧ p.z - bmin.z - idx.2.2 * res < res)

@[simp] theorem getC_zero (v : Vec3) : getC v 0 = v.x := rfl

@[simp] theorem getC_one (v : Vec3) : getC v 1 = v.y := rfl

@[simp] theorem getC_two (v : Vec3) : getC v 2 = v.z := rfl

/-- Number of columns of a row-list matrix (`DMatrix::ncols`). -/
def ncolsM (A : List (List ℚ)) : ℕ := (A.headD []).length

/-- `DMatrix::from_fn(m, n, g)`: the `m × n` matrix with entry `g i j`. -/
def matMk (m n : ℕ) (g : ℕ → ℕ → ℚ) : List (List ℚ) :=
  (List.range m).map fun i => (List.range n).map (g i)

/-- Matrix transpose (`transpose_mut` in the source). -/
def matTr (A : List (List ℚ)) : List (List ℚ) :=
  (List.range (ncolsM A)).map fun j => A.map fun row => row.getD j 0

def dotL (u v : List ℚ) : ℚ := (List.zipWith (fun a b => a * b) u v).sum

def matMulM (A B : List (List ℚ)) : List (List ℚ) :=
  A.map fun row => (matTr B).map fun col => dotL row col

/-- Row-vector times matrix, as in `let least_squares = b * pseudo`. -/
def vecMatM (v : List ℚ) (B : List (List ℚ)) : List ℚ :=
  (matTr B).map fun col => dotL v col

/-- `DualMarchingCubes::pseudoinverse`, with the LAPACK SVD abstracted as
an oracle argument: `none` models `Err` from `m.svd()`, and
`some (u, s, vt)` its `Ok((u, s, vt))` factors.  The truncation of
singular values at `0.1` and the product `v * sm * ut` are the source's
own code. -/
def pseudoInv (svd : Option (List (List ℚ) × List ℚ × List (List ℚ))) :
    Option (List (List ℚ)) :=
  match svd with
  | none => none
  | some (u, s, vt) =>
    some (matMulM (matMulM (matTr vt)
      (matMk (ncolsM vt) (ncolsM u) fun c r =>
        if c ≠ r then 0 else if 1 / 10 < s.getD c 0 then 1 / s.getD c 0 else 0))
      (matTr u))

/-- The `3 × planes.len()` matrix of normals that the source hands to the
SVD (`from_fn(3, planes.len(), |c, r| planes[r].n[c])`); the `svd` oracle
argument of `optimizeQef` stands for the LAPACK SVD of this matrix. -/
def normalMat (planes : List Plane) : List (List ℚ) :=
  matMk 3 planes.length fun c r => getC (planes.getD r default).n ⟨c % 3, Nat.mod_lt c (by norm_num)⟩

/-- `DualMarchingCubes::optimize_qef` with the SVD oracle. -/
def optimizeQef (svd : Option (List (List ℚ) × List ℚ × List (List ℚ)))
    (planes : List Plane) (mean : Vec3) : Option Vec3 :=
  match pseudoInv svd with
  | none => none
  | some pseudo =>
    some (mean +
      ⟨(vecMatM ((List.range planes.length).map fun i =>
          dotV ((planes.getD i default).p - mean) (planes.getD i default).n) pseudo).getD 0 0,
       (vecMatM ((List.range planes.length).map fun i =>
          dotV ((planes.getD i default).p - mean) (planes.getD i default).n) pseudo).getD 1 0,
       (vecMatM ((List.range planes.length).map fun i =>
          dotV ((planes.getD i default).p - mean) (planes.getD i default).n) pseudo).getD 2 0⟩)

/-- The centroid `mean(pᵢ)` of the tangent-plane points, folded as in the
source.  (For an empty list the source would divide `0/0` giving NaN; over
`ℚ` this is `0` — no claim touches the empty case.) -/
def centroid (planes : List Plane) : Vec3 :=
  ⟨(planes.foldl (fun (sum : Vec3) pl => sum + pl.p) ⟨0, 0, 0⟩).x / planes.length,
   (planes.foldl (fun (sum : Vec3) pl => sum + pl.p) ⟨0, 0, 0⟩).y / planes.length,
   (planes.foldl (fun (sum : Vec3) pl => sum + pl.p) ⟨0, 0, 0⟩).z / planes.length⟩

/-- `DualMarchingCubes::compute_cell_point`, with the tangent planes
already collected (the source gathers them from the edge grid) and the
SVD oracle: accept the algebraic candidate only if it is strictly inside
the cell, otherwise fall back to `binary_search_minimal_qef`. -/
def computeCellPoint (svd : Option (List (List ℚ) × List ℚ × List (List ℚ)))
    (planes : List Plane) (bmin : Vec3) (res : ℚ) (idx : ℕ × ℕ × ℕ)
    (fuel : ℕ) : Option Vec3 :=
  match optimizeQef svd planes (centroid planes) with
  | some best =>
    if isInCell bmin res idx best then some best
    else binSearch fuel planes bmin res idx
  | none => binSearch fuel planes bmin res idx

theorem axisLoop_bounds (planes : List Plane) (i : Fin 3) (lo hi : ℚ) :
    ∀ (fuel : ℕ) (a b ma mb : Vec3) (out : Vec3 × Vec3 × Vec3 × Vec3),
      axisLoop planes i fuel a b ma mb = some out →
      lo ≤ getC a i → getC b i ≤ hi →
      lo ≤ getC ma i → getC ma i ≤ max lo hi →
      lo ≤ getC out.2.2.1 i ∧ getC out.2.2.1 i ≤ max lo hi := by
  intro fuel
  induction fuel with
  | zero =>
    intro a b ma mb out hout ha hb hma1 hma2
    rw [axisLoop] at hout
    by_cases hguard : getC a i + 1 / 100 < getC b i
    · rw [if_pos hguard] at hout; simp at hout
    · rw [if_neg hguard] at hout
      obtain rfl : (a, b, ma, mb) = out := by simpa using hout
      exact ⟨hma1, hma2⟩
  | succ n ih =>
    intro a b ma mb out hout ha hb hma1 hma2
    rw [axisLoop] at hout
    by_cases hguard : getC a i + 1 / 100 < getC b i
    · rw [if_pos hguard] at hout
      have hab : getC a i < getC b i := by linarith
      have hm1 : getC a i ≤ (getC a i + getC b i) * (1 / 2) := by linarith
      have hm2 : (getC a i + getC b i) * (1 / 2) < getC b i := by linarith
      have hlom : lo ≤ (getC a i + getC b i) * (1 / 2) := le_trans ha hm1
      have hmmax : (getC a i + getC b i) * (1 / 2) ≤ max lo hi :=
        le_trans (le_trans hm2.le hb) (le_max_right lo hi)
      have hmbhi : (getC a i + getC b i) * (1 / 2) + 1 / 100 / 100 ≤ hi := by
        have : (getC a i + getC b i) * (1 / 2) + 1 / 100 / 100 < getC b i := by linarith
        linarith [hb]
      by_cases hq : qef planes (setC ma i ((getC a i + getC b i) * (1 / 2))) <
          qef planes (setC mb i ((getC a i + getC b i) * (1 / 2) + 1 / 100 / 100))
      · rw [if_pos hq] at hout
        refine ih _ _ _ _ _ hout ha ?_ ?_ ?_
        · rw [getC_setC_same]; exact hmbhi
        · rw [getC_setC_same]; exact hlom
        · rw [getC_setC_same]; exact hmmax
      · rw [if_neg hq] at hout
        refine ih _ _ _ _ _ hout ?_ hb ?_ ?_
        · rw [getC_setC_same]; exact hlom
        · rw [getC_setC_same]; exact hlom
        · rw [getC_setC_same]; exact hmmax
    · rw [if_neg hguard] at hout
      obtain rfl : (a, b, ma, mb) = out := by simpa using hout
      exact ⟨hma1, hma2⟩

theorem axisLoop_term (planes : List Plane) (i : Fin 3) :
    ∀ (fuel : ℕ) (a b ma mb : Vec3),
      getC b i - getC a i ≤ 1 / 100 * (100 / 51) ^ fuel →
      ∃ out, axisLoop planes i fuel a b ma mb = some out := by
  intro fuel
  induction fuel with
  | zero =>
    intro a b ma mb hw
    rw [pow_zero, mul_one] at hw
    rw [axisLoop, if_neg (by linarith : ¬ getC a i + 1 / 100 < getC b i)]
    exact ⟨_, rfl⟩
  | succ n ih =>
    intro a b ma mb hw
    rw [axisLoop]
    by_cases hguard : getC a i + 1 / 100 < getC b i
    · rw [if_pos hguard]
      have hp : (51 / 100 : ℚ) * (1 / 100 * (100 / 51) ^ (n + 1)) =
          1 / 100 * (100 / 51) ^ n := by rw [pow_succ]; ring
      have hstep : (51 / 100 : ℚ) * (getC b i - getC a i) ≤ 1 / 100 * (100 / 51) ^ n := by
        rw [← hp]
        exact mul_le_mul_of_nonneg_left hw (by norm_num)
      by_cases hq : qef planes (setC ma i ((getC a i + getC b i) * (1 / 2))) <
          qef planes (setC mb i ((getC a i + getC b i) * (1 / 2) + 1 / 100 / 100))
      · rw [if_pos hq]
        refine ih _ _ _ _ ?_
        rw [getC_setC_same]
        linarith
      · rw [if_neg hq]
        refine ih _ _ _ _ ?_
        rw [getC_setC_same]
        linarith
    · rw [if_neg hguard]
      exact ⟨_, rfl⟩

theorem axisPass_bounds {fuel : ℕ} {planes : List Plane} {res : ℚ} {i : Fin 3}
    {result r' : Vec3} (h : axisPass fuel planes res i result = some r') :
    (getC result i ≤ getC r' i ∧
      getC r' i ≤ max (getC result i) (getC result i + (res - 1 / 100 * 2))) ∧
    ∀ j, j ≠ i → getC r' j = getC result j := by
  unfold axisPass at h
  cases hout : axisLoop planes i fuel result
      (setC result i (getC result i + (res - 1 / 100 * 2))) result
      (setC result i (getC result i + (res - 1 / 100 * 2))) with
  | none => rw [hout] at h; simp at h
  | some out =>
    rw [hout] at h
    obtain rfl : setC result i (getC out.2.2.1 i) = r' := by
      obtain ⟨o1, o2, o3, o4⟩ := out
      simpa using h
    have hb := axisLoop_bounds planes i (getC result i)
      (getC result i + (res - 1 / 100 * 2)) fuel _ _ _ _ _ hout
      (le_refl _) (by rw [getC_setC_same]) (le_refl _) (le_max_left _ _)
    refine ⟨?_, fun j hj => getC_setC_ne result hj _⟩
    rw [getC_setC_same]
    exact hb

theorem axisPass_term {fuel : ℕ} (planes : List Plane) {res : ℚ} (i : Fin 3)
    (result : Vec3) (h : res - 1 / 100 * 2 ≤ 1 / 100 * (100 / 51) ^ fuel) :
    ∃ r', axisPass fuel planes res i result = some r' := by
  unfold axisPass
  obtain ⟨out, hout⟩ := axisLoop_term planes i fuel result
    (setC result i (getC result i + (res - 1 / 100 * 2))) result
    (setC result i (getC result i + (res - 1 / 100 * 2)))
    (by rw [getC_setC_same]; linarith)
  rw [hout]
  exact ⟨_, rfl⟩

theorem binSearch_bounds {fuel : ℕ} {planes : List Plane} {bmin : Vec3} {res : ℚ}
    {idx : ℕ × ℕ × ℕ} {v : Vec3} (h : binSearch fuel planes bmin res idx = some v) :
    (bmin.x + (1 / 100 + res * idx.1) ≤ v.x ∧
      v.x ≤ max (bmin.x + (1 / 100 + res * idx.1))
        (bmin.x + (1 / 100 + res * idx.1) + (res - 1 / 100 * 2))) ∧
    (bmin.y + (1 / 100 + res * idx.2.1) ≤ v.y ∧
      v.y ≤ max (bmin.y + (1 / 100 + res * idx.2.1))
        (bmin.y + (1 / 100 + res * idx.2.1) + (res - 1 / 100 * 2))) ∧
    (bmin.z + (1 / 100 + res * idx.2.2) ≤ v.z ∧
      v.z ≤ max (bmin.z + (1 / 100 + res * idx.2.2))
        (bmin.z + (1 / 100 + res * idx.2.2) + (res - 1 / 100 * 2))) := by
  unfold binSearch at h
  cases h1 : axisPass fuel planes res 0
      ⟨bmin.x + (1 / 100 + res * idx.1),
       bmin.y + (1 / 100 + res * idx.2.1),
       bmin.z + (1 / 100 + res * idx.2.2)⟩ with
  | none => rw [h1] at h; simp at h
  | some r1 =>
    rw [h1, Option.some_bind] at h
    cases h2 : axisPass fuel planes res 1 r1 with
    | none => rw [h2] at h; simp at h
    | some r2 =>
      rw [h2, Option.some_bind] at h
      cases h3 : axisPass fuel planes res 2 r2 with
      | none => rw [h3] at h; simp at h
      | some r3 =>
        rw [h3] at h
        obtain rfl : r3 = v := by simpa using h
        obtain ⟨hb1, hkeep1⟩ := axisPass_bounds h1
        obtain ⟨hb2, hkeep2⟩ := axisPass_bounds h2
        obtain ⟨hb3, hkeep3⟩ := axisPass_bounds h3
        have e21 : getC r2 0 = getC r1 0 := hkeep2 0 (by decide)
        have e31 : getC r3 0 = getC r2 0 := hkeep3 0 (by decide)
        have e11 : getC r1 1 = bmin.y + (1 / 100 + res * idx.2.1) := hkeep1 1 (by decide)
        have e32 : getC r3 1 = getC r2 1 := hkeep3 1 (by decide)
        have e12 : getC r1 2 = bmin.z + (1 / 100 + res * idx.2.2) := hkeep1 2 (by decide)
        have e22 : getC r2 2 = getC r1 2 := hkeep2 2 (by decide)
        simp only [getC_zero, getC_one, getC_two] at hb1 hb2 hb3 e21 e31 e11 e32 e12 e22
        refine ⟨?_, ?_, ?_⟩
        · rw [e31, e21]; exact hb1
        · rw [e32, ← e11]; exact hb2
        · rw [← e12, ← e22]; exact hb3

@[simp] theorem setC_zero (v : Vec3) (q : ℚ) : setC v 0 q = ⟨q, v.y, v.z⟩ := rfl

@[simp] theorem setC_one (v : Vec3) (q : ℚ) : setC v 1 q = ⟨v.x, q, v.z⟩ := rfl

@[simp] theorem setC_two (v : Vec3) (q : ℚ) : setC v 2 q = ⟨v.x, v.y, q⟩ := rfl

/-- Claim C3, amended: provided the resolution exceeds `PRECISION = 0.01`,
every cell point produced by `compute_cell_point` — whether the accepted
algebraic QEF candidate or the coordinate-descent fallback result — lies
strictly inside the open cube of its cell, i.e. satisfies `is_in_cell`. -/
theorem c3_vertex_in_cell {svd : Option (List (List ℚ) × List ℚ × List (List ℚ))}
    {planes : List Plane} {bmin : Vec3} {res : ℚ} {idx : ℕ × ℕ × ℕ} {fuel : ℕ} {v : Vec3}
    (hres : 1 / 100 < res)
    (h : computeCellPoint svd planes bmin res idx fuel = some v) :
    isInCell bmin res idx v = true := by
  have hbin : ∀ w : Vec3, binSearch fuel planes bmin res idx = some w →
      isInCell bmin res idx w = true := by
    intro w hw
    obtain ⟨⟨hx1, hx2⟩, ⟨hy1, hy2⟩, hz1, hz2⟩ := binSearch_bounds hw
    unfold isInCell
    rw [decide_eq_true_eq]
    refine ⟨by linarith, ?_, by linarith, ?_, by linarith, ?_⟩
    · rcases max_choice (bmin.x + (1 / 100 + res * idx.1))
        (bmin.x + (1 / 100 + res * idx.1) + (res - 1 / 100 * 2)) with hm | hm <;>
        rw [hm] at hx2 <;> linarith
    · rcases max_choice (bmin.y + (1 / 100 + res * idx.2.1))
        (bmin.y + (1 / 100 + res * idx.2.1) + (res - 1 / 100 * 2)) with hm | hm <;>
        rw [hm] at hy2 <;> linarith
    · rcases max_choice (bmin.z + (1 / 100 + res * idx.2.2))
        (bmin.z + (1 / 100 + res * idx.2.2) + (res - 1 / 100 * 2)) with hm | hm <;>
        rw [hm] at hz2 <;> linarith
  unfold computeCellPoint at h
  cases hopt : optimizeQef svd planes (centroid planes) with
  | none => simp only [hopt] at h; exact hbin v h
  | some best =>
    simp only [hopt] at h
    by_cases hin : isInCell bmin res idx best = true
    · rw [if_pos hin] at h
      obtain rfl : best = v := by simpa using h
      exact hin
    · rw [if_neg hin] at h
      exact hbin v h

set_option maxHeartbeats 1600000 in
/-- Witness for `c3_vertex_in_cell` on a concrete fallback run
(`res = 1/25`, no tangent planes, cell `(0,0,0)`). -/
theorem c3_vertex_in_cell_witness :
    isInCell ⟨0, 0, 0⟩ (1 / 25) (0, 0, 0) ⟨1 / 50, 1 / 50, 1 / 50⟩ = true :=
  @c3_vertex_in_cell none [] ⟨0, 0, 0⟩ (1 / 25) (0, 0, 0) 5 ⟨1 / 50, 1 / 50, 1 / 50⟩
    (by norm_num)
    (by norm_num [computeCellPoint, optimizeQef, pseudoInv, centroid, binSearch,
      axisPass, axisLoop, qef])

/-- Claim C3, counterexample: with resolution `res = 1/200 < PRECISION`
the fallback starts at `cell_min + PRECISION` on each axis, which is
already outside the open cell, so the produced vertex violates
`is_in_cell` — the claim fails without a lower bound on `res`. -/
theorem c3_cex :
    computeCellPoint none [⟨⟨1 / 2, 1 / 2, 1 / 2⟩, ⟨1, 1, 0⟩⟩] ⟨0, 0, 0⟩ (1 / 200)
      (0, 0, 0) 0 = some ⟨1 / 100, 1 / 100, 1 / 100⟩ ∧
    isInCell ⟨0, 0, 0⟩ (1 / 200) (0, 0, 0) ⟨1 / 100, 1 / 100, 1 / 100⟩ = false := by
  constructor
  · norm_num [computeCellPoint, optimizeQef, pseudoInv, centroid, binSearch,
      axisPass, axisLoop, qef]
  · norm_num [isInCell]

/-- Claim C10: for every plane list, cell index and resolution `res > 0`
there is enough fuel for all three per-axis bisection loops of
`binary_search_minimal_qef` to run to completion (each iteration shrinks
the bracket to at most `51/100` of its width while the guard holds), so
the fallback always returns a point. -/
theorem c10_binsearch_terminates (planes : List Plane) (bmin : Vec3)
    (idx : ℕ × ℕ × ℕ) {res : ℚ} (_hres : 0 < res) :
    ∃ fuel v, binSearch fuel planes bmin res idx = some v := by
  obtain ⟨n, hn⟩ := pow_unbounded_of_one_lt ((100 : ℚ) * res)
    (show (1 : ℚ) < 100 / 51 by norm_num)
  have hb : res - 1 / 100 * 2 ≤ 1 / 100 * (100 / 51) ^ n := by
    have h1 : 100 * res < (100 / 51) ^ n := hn
    linarith
  obtain ⟨r1, h1⟩ := axisPass_term planes 0
    ⟨bmin.x + (1 / 100 + res * idx.1),
     bmin.y + (1 / 100 + res * idx.2.1),
     bmin.z + (1 / 100 + res * idx.2.2)⟩ hb
  obtain ⟨r2, h2⟩ := axisPass_term planes 1 r1 hb
  obtain ⟨r3, h3⟩ := axisPass_term planes 2 r2 hb
  refine ⟨n, r3, ?_⟩
  unfold binSearch
  rw [h1, Option.some_bind, h2, Option.some_bind, h3]

/-- Witness for `c10_binsearch_terminates` at `res = 1`. -/
theorem c10_binsearch_terminates_witness :
    ∃ fuel v, binSearch fuel [] ⟨0, 0, 0⟩ 1 (0, 0, 0) = some v :=
  c10_binsearch_terminates [] ⟨0, 0, 0⟩ (0, 0, 0) (by norm_num)

/-- Modelled from the spec: the centre of cell `idx`, `bbox.min + h *
(idx + 1/2)` per axis.  The source never computes this point — it is the
reference point of the spec's QEF-monotonicity claim only. -/
def specCellCenter (bmin : Vec3) (res : ℚ) (idx : ℕ × ℕ × ℕ) : Vec3 :=
  ⟨bmin.x + res * (idx.1 + 1 / 2),
   bmin.y + res * (idx.2.1 + 1 / 2),
   bmin.z + res * (idx.2.2 + 1 / 2)⟩

set_option maxHeartbeats 1600000 in
/-- Claim C8, counterexample: one tangent plane through the cell centre
with normal `(1,1,0)`; the QEF vanishes at the centre, but the coordinate
descent returns a point with strictly positive QEF value — so
`Q(v) ≤ Q(cell_center)` fails. -/
theorem c8_cex :
    binSearch 5 [⟨⟨1 / 50, 1 / 50, 1 / 50⟩, ⟨1, 1, 0⟩⟩] ⟨0, 0, 0⟩ (1 / 25) (0, 0, 0) =
      some ⟨1 / 50, 301 / 20000, 1 / 50⟩ ∧
    specCellCenter ⟨0, 0, 0⟩ (1 / 25) (0, 0, 0) = ⟨1 / 50, 1 / 50, 1 / 50⟩ ∧
    qef [⟨⟨1 / 50, 1 / 50, 1 / 50⟩, ⟨1, 1, 0⟩⟩] ⟨1 / 50, 1 / 50, 1 / 50⟩ <
      qef [⟨⟨1 / 50, 1 / 50, 1 / 50⟩, ⟨1, 1, 0⟩⟩] ⟨1 / 50, 301 / 20000, 1 / 50⟩ := by
  refine ⟨?_, ?_, ?_⟩
  · norm_num [binSearch, axisPass, axisLoop, qef, dotV]
  · norm_num [specCellCenter]
  · norm_num [qef, dotV]

/-- Claim C8, amended: the coordinate-descent fallback guarantees no QEF
decrease relative to the cell centre; what it does guarantee is that its
final iterate stays in the `PRECISION`-inset search box of the cell: on
each axis the offset from the cell corner is at least `PRECISION` and at
most `max PRECISION (res - PRECISION)`. -/
theorem c8_fallback_box {fuel : ℕ} {planes : List Plane} {bmin : Vec3} {res : ℚ}
    {idx : ℕ × ℕ × ℕ} {v : Vec3} (h : binSearch fuel planes bmin res idx = some v) :
    (1 / 100 ≤ v.x - (bmin.x + res * idx.1) ∧
      v.x - (bmin.x + res * idx.1) ≤ max (1 / 100) (res - 1 / 100)) ∧
    (1 / 100 ≤ v.y - (bmin.y + res * idx.2.1) ∧
      v.y - (bmin.y + res * idx.2.1) ≤ max (1 / 100) (res - 1 / 100)) ∧
    (1 / 100 ≤ v.z - (bmin.z + res * idx.2.2) ∧
      v.z - (bmin.z + res * idx.2.2) ≤ max (1 / 100) (res - 1 / 100)) := by
  obtain ⟨⟨hx1, hx2⟩, ⟨hy1, hy2⟩, hz1, hz2⟩ := binSearch_bounds h
  refine ⟨⟨by linarith, ?_⟩, ⟨by linarith, ?_⟩, by linarith, ?_⟩
  · rcases max_choice (bmin.x + (1 / 100 + res * idx.1))
      (bmin.x + (1 / 100 + res * idx.1) + (res - 1 / 100 * 2)) with hm | hm <;>
      rw [hm] at hx2
    · exact le_trans (by linarith) (le_max_left _ _)
    · exact le_trans (by linarith) (le_max_right _ _)
  · rcases max_choice (bmin.y + (1 / 100 + res * idx.2.1))
      (bmin.y + (1 / 100 + res * idx.2.1) + (res - 1 / 100 * 2)) with hm | hm <;>
      rw [hm] at hy2
    · exact le_trans (by linarith) (le_max_left _ _)
    · exact le_trans (by linarith) (le_max_right _ _)
  · rcases max_choice (bmin.z + (1 / 100 + res * idx.2.2))
      (bmin.z + (1 / 100 + res * idx.2.2) + (res - 1 / 100 * 2)) with hm | hm <;>
      rw [hm] at hz2
    · exact le_trans (by linarith) (le_max_left _ _)
    · exact le_trans (by linarith) (le_max_right _ _)

set_option maxHeartbeats 1600000 in
/-- Witness for `c8_fallback_box` on the concrete run with no planes
(`res = 1/25`). -/
theorem c8_fallback_box_witness :
    (1 / 100 ≤ (⟨1 / 50, 1 / 50, 1 / 50⟩ : Vec3).x -
        ((⟨0, 0, 0⟩ : Vec3).x + 1 / 25 * ((0, 0, 0) : ℕ × ℕ × ℕ).1) ∧
      (⟨1 / 50, 1 / 50, 1 / 50⟩ : Vec3).x -
        ((⟨0, 0, 0⟩ : Vec3).x + 1 / 25 * ((0, 0, 0) : ℕ × ℕ × ℕ).1) ≤
        max (1 / 100) (1 / 25 - 1 / 100)) ∧
    (1 / 100 ≤ (⟨1 / 50, 1 / 50, 1 / 50⟩ : Vec3).y -
        ((⟨0, 0, 0⟩ : Vec3).y + 1 / 25 * ((0, 0, 0) : ℕ × ℕ × ℕ).2.1) ∧
      (⟨1 / 50, 1 / 50, 1 / 50⟩ : Vec3).y -
        ((⟨0, 0, 0⟩ : Vec3).y + 1 / 25 * ((0, 0, 0) : ℕ × ℕ × ℕ).2.1) ≤
        max (1 / 100) (1 / 25 - 1 / 100)) ∧
    (1 / 100 ≤ (⟨1 / 50, 1 / 50, 1 / 50⟩ : Vec3).z -
        ((⟨0, 0, 0⟩ : Vec3).z + 1 / 25 * ((0, 0, 0) : ℕ × ℕ × ℕ).2.2) ∧
      (⟨1 / 50, 1 / 50, 1 / 50⟩ : Vec3).z -
        ((⟨0, 0, 0⟩ : Vec3).z + 1 / 25 * ((0, 0, 0) : ℕ × ℕ × ℕ).2.2) ≤
        max (1 / 100) (1 / 25 - 1 / 100)) :=
  @c8_fallback_box 5 [] ⟨0, 0, 0⟩ (1 / 25) (0, 0, 0) ⟨1 / 50, 1 / 50, 1 / 50⟩
    (by norm_num [binSearch, axisPass, axisLoop, qef])

/-- Claim C6: `compute_cell_point` returns the algebraic QEF candidate
(centroid plus truncated-SVD least-squares correction) exactly when the
SVD oracle succeeds and the candidate passes the strict `is_in_cell`
test; on SVD failure, or when the candidate is outside, it returns the
coordinate-descent fallback result. -/
theorem c6_candidate_or_fallback
    (svd : Option (List (List ℚ) × List ℚ × List (List ℚ)))
    (planes : List Plane) (bmin : Vec3) (res : ℚ) (idx : ℕ × ℕ × ℕ) (fuel : ℕ) :
    (svd = none →
      computeCellPoint svd planes bmin res idx fuel = binSearch fuel planes bmin res idx) ∧
    (∀ u s vt, svd = some (u, s, vt) →
      ∃ c, optimizeQef svd planes (centroid planes) = some c ∧
        computeCellPoint svd planes bmin res idx fuel =
          if isInCell bmin res idx c then some c
          else binSearch fuel planes bmin res idx) := by
  constructor
  · rintro rfl
    rfl
  · rintro u s vt rfl
    exact ⟨_, rfl, rfl⟩

/-- Witness for `c6_candidate_or_fallback`: both hypotheses discharged at
concrete SVD oracle outcomes. -/
theorem c6_candidate_or_fallback_witness :
    computeCellPoint none [] ⟨0, 0, 0⟩ 1 (0, 0, 0) 0 = binSearch 0 [] ⟨0, 0, 0⟩ 1 (0, 0, 0) ∧
    ∃ c, optimizeQef (some ([[1]], [1], [[1]])) [] (centroid []) = some c ∧
      computeCellPoint (some ([[1]], [1], [[1]])) [] ⟨0, 0, 0⟩ 1 (0, 0, 0) 0 =
        if isInCell ⟨0, 0, 0⟩ 1 (0, 0, 0) c then some c
        else binSearch 0 [] ⟨0, 0, 0⟩ 1 (0, 0, 0) :=
  ⟨(c6_candidate_or_fallback none [] ⟨0, 0, 0⟩ 1 (0, 0, 0) 0).1 rfl,
   (c6_candidate_or_fallback (some ([[1]], [1], [[1]])) [] ⟨0, 0, 0⟩ 1 (0, 0, 0) 0).2
     [[1]] [1] [[1]] rfl⟩

/-- The 12 cell-edge labels of the source's `enum Edge`. -/
inductive Edge
  | A | B | C | D | E | F | G | H | I | J | K | L
deriving DecidableEq, Repr

/-- `edge as usize`. -/
def edgeNum : Edge → ℕ
  | .A => 0 | .B => 1 | .C => 2 | .D => 3 | .E => 4 | .F => 5
  | .G => 6 | .H => 7 | .I => 8 | .J => 9 | .K => 10 | .L => 11

/-- `EDGE_OFFSET`: the cell offset owning each edge's crossing data. -/
def edgeOffset : Edge → ℕ × ℕ × ℕ
  | .A => (0, 0, 0) | .B => (0, 0, 0) | .C => (0, 0, 0)
  | .D => (0, 1, 0) | .E => (1, 0, 0) | .F => (1, 0, 0)
  | .G => (0, 0, 1) | .H => (0, 0, 1) | .I => (0, 1, 0)
  | .J => (0, 1, 1) | .K => (1, 0, 1) | .L => (1, 1, 0)

/-- `QUADS[edge]` for the three base edges; `none` models the
out-of-bounds panic of `QUADS[edge as usize]` for any other edge. -/
def quadList : Edge → Option (List Edge)
  | .A => some [.A, .G, .J, .D]
  | .B => some [.B, .E, .K, .H]
  | .C => some [.C, .I, .L, .F]
  | _ => none

/-- `neg_offset`: `usize` subtraction per coordinate; `none` models the
underflow panic (debug) / wrap-into-out-of-bounds panic (release) when
some offset exceeds the index. -/
def negOffset (idx off : ℕ × ℕ × ℕ) : Option (ℕ × ℕ × ℕ) :=
  if off.1 ≤ idx.1 ∧ off.2.1 ≤ idx.2.1 ∧ off.2.2 ≤ idx.2.2 then
    some (idx.1 - off.1, idx.2.1 - off.2.1, idx.2.2 - off.2.2)
  else none

/-- The `for quad_egde in QUADS[edge]` loop of `compute_quad`: one
`lookup_cell_point` result per surrounding cell; `lookup` abstracts
`lookup_cell_point` (claim C2 is about the emitted faces, not the vertex
values). -/
def collectCells (lookup : Edge → ℕ × ℕ × ℕ → ℕ) (idx : ℕ × ℕ × ℕ) :
    List Edge → Option (List ℕ)
  | [] => some []
  | e :: es =>
    match negOffset idx (edgeOffset e) with
    | none => none
    | some c =>
      match collectCells lookup idx es with
      | none => none
      | some ps => some (lookup e c :: ps)

/-- `DualMarchingCubes::compute_quad`: gather the four cell points, flip
the winding when the sample at the edge's lower endpoint is negative, and
append two triangles.  `valueAt` abstracts `value_grid[idx[2]][idx[1]][idx[0]]`. -/
def computeQuad (lookup : Edge → ℕ × ℕ × ℕ → ℕ) (valueAt : ℕ × ℕ × ℕ → ℚ)
    (edge : Edge) (idx : ℕ × ℕ × ℕ) (faces : List (ℕ × ℕ × ℕ)) :
    Option (List (ℕ × ℕ × ℕ)) :=
  match quadList edge with
  | none => none
  | some qs =>
    match collectCells lookup idx qs with
    | none => none
    | some ps0 =>
      some (faces ++
        [((if valueAt idx < 0 then ps0.reverse else ps0).getD 0 0,
          (if valueAt idx < 0 then ps0.reverse else ps0).getD 1 0,
          (if valueAt idx < 0 then ps0.reverse else ps0).getD 2 0),
         ((if valueAt idx < 0 then ps0.reverse else ps0).getD 2 0,
          (if valueAt idx < 0 then ps0.reverse else ps0).getD 3 0,
          (if valueAt idx < 0 then ps0.reverse else ps0).getD 0 0)])

/-- The four cells surrounding the crossing edge all exist: both cell
coordinates orthogonal to the edge's axis are at least 1 (the edge's own
axis coordinate is unconstrained — its quad edges never offset along it). -/
def quadCellsExist : Edge → ℕ × ℕ × ℕ → Prop
  | .A, idx => 1 ≤ idx.2.1 ∧ 1 ≤ idx.2.2
  | .B, idx => 1 ≤ idx.1 ∧ 1 ≤ idx.2.2
  | .C, idx => 1 ≤ idx.1 ∧ 1 ≤ idx.2.1
  | _, _ => False

/-- Claim C2, amended: for every edge-grid entry, `compute_quad` appends
exactly one quad (two triangles) iff both cell coordinates orthogonal to
the edge's axis are at least 1 (then the four surrounding cells exist);
otherwise the `usize` subtraction in `neg_offset` underflows (modelled as
`none`) instead of skipping the entry. -/
theorem c2_quad_iff_neighbors (lookup : Edge → ℕ × ℕ × ℕ → ℕ)
    (valueAt : ℕ × ℕ × ℕ → ℚ) (edge : Edge) (idx : ℕ × ℕ × ℕ)
    (faces : List (ℕ × ℕ × ℕ)) :
    ((∃ l, computeQuad lookup valueAt edge idx faces = some l ∧
        l.length = faces.length + 2) ↔ quadCellsExist edge idx) ∧
    (computeQuad lookup valueAt edge idx faces = none ↔ ¬ quadCellsExist edge idx) := by
  cases edge
  case A =>
    by_cases h1 : 1 ≤ idx.2.1 <;> by_cases h2 : 1 ≤ idx.2.2 <;>
      simp [computeQuad, quadList, collectCells, negOffset, edgeOffset,
        quadCellsExist, h1, h2]
  case B =>
    by_cases h1 : 1 ≤ idx.1 <;> by_cases h2 : 1 ≤ idx.2.2 <;>
      simp [computeQuad, quadList, collectCells, negOffset, edgeOffset,
        quadCellsExist, h1, h2]
  case C =>
    by_cases h1 : 1 ≤ idx.1 <;> by_cases h2 : 1 ≤ idx.2.1 <;>
      simp [computeQuad, quadList, collectCells, negOffset, edgeOffset,
        quadCellsExist, h1, h2]
  all_goals simp [computeQuad, quadList, quadCellsExist]

/-- Claim C2, counterexample: the edge-grid entry `(A, (0,1,1))` is not
strictly positive on all three axes, yet a quad (two triangles) is
emitted without any underflow; and the boundary entry `(A, (1,1,0))`
aborts on `usize` underflow instead of producing "no quad and no panic". -/
theorem c2_cex :
    computeQuad (fun _ _ => 0) (fun _ => 1) Edge.A (0, 1, 1) [] =
      some [(0, 0, 0), (0, 0, 0)] ∧
    ¬ (0 < (0, 1, 1).1 ∧ 0 < ((0, 1, 1) : ℕ × ℕ × ℕ).2.1 ∧
        0 < ((0, 1, 1) : ℕ × ℕ × ℕ).2.2) ∧
    computeQuad (fun _ _ => 0) (fun _ => 1) Edge.A (1, 1, 0) [] = none := by
  refine ⟨?_, by norm_num, ?_⟩ <;>
    norm_num [computeQuad, quadList, collectCells, negOffset, edgeOffset]

/-- The full mutable state of the tessellator that a retry touches:
`value_grid`, `edge_grid`, `vertex_map`, and the mesh. -/
structure TessSt where
  valueGrid : List (List (List ℚ))
  edgeGrid : List ((Edge × (ℕ × ℕ × ℕ)) × Plane)
  vmap : List ((ℕ × (ℕ × ℕ × ℕ)) × ℕ)
  verts : List Vec3
  faces : List (ℕ × ℕ × ℕ)
deriving DecidableEq, Repr

/-- `value_grid[zi][yi][xi]` (in-range reads only; the claims never reach
the out-of-range default). -/
def gridAt (g : List (List (List ℚ))) (zi yi xi : ℕ) : ℚ :=
  ((g.getD zi []).getD yi []).getD xi 0

/-- `DualMarchingCubes::bitset_for_cell`: bit `z<<2 | y<<1 | x` is set iff
the corner sample is negative. -/
def bitsetForCell (g : List (List (List ℚ))) (idx : ℕ × ℕ × ℕ) : ℕ :=
  (if gridAt g idx.2.2 idx.2.1 idx.1 < 0 then 1 else 0) +
  (if gridAt g idx.2.2 idx.2.1 (idx.1 + 1) < 0 then 2 else 0) +
  (if gridAt g idx.2.2 (idx.2.1 + 1) idx.1 < 0 then 4 else 0) +
  (if gridAt g idx.2.2 (idx.2.1 + 1) (idx.1 + 1) < 0 then 8 else 0) +
  (if gridAt g (idx.2.2 + 1) idx.2.1 idx.1 < 0 then 16 else 0) +
  (if gridAt g (idx.2.2 + 1) idx.2.1 (idx.1 + 1) < 0 then 32 else 0) +
  (if gridAt g (idx.2.2 + 1) (idx.2.1 + 1) idx.1 < 0 then 64 else 0) +
  (if gridAt g (idx.2.2 + 1) (idx.2.1 + 1) (idx.1 + 1) < 0 then 128 else 0)

/-- `BitSet::get(k)` of the external bitset crate, modelled from the spec
as the `k`-th binary digit. -/
def bitGet (es k : ℕ) : Bool := es / 2 ^ k % 2 == 1

/-- `DualMarchingCubes::get_connected_edges`: first partition of the
cell's configuration containing `edge`; `none` models the "Did not find
edge_set" panic.  `configs` abstracts the externally supplied 256-entry
configuration table. -/
def getConnectedEdges (configs : ℕ → List ℕ) (edge : Edge) (cell : ℕ) : Option ℕ :=
  (configs cell).find? fun es => bitGet es (edgeNum edge)

/-- `HashMap::get` on the vertex map, as an association-list lookup. -/
def assocFind : List ((ℕ × (ℕ × ℕ × ℕ)) × ℕ) → ℕ × (ℕ × ℕ × ℕ) → Option ℕ
  | [], _ => none
  | (k, v) :: rest, key => if k = key then some v else assocFind rest key

/-- `DualMarchingCubes::lookup_cell_point`, exactly as written: consult
`vertex_map` for `(edge_set, idx)`; on hit return the cached index; on
miss compute the cell point, append it to the mesh and return its index —
the source never inserts the new entry into `vertex_map`.  `computePoint`
abstracts `compute_cell_point` (deterministic in the state). -/
def lookupCellPoint (configs : ℕ → List ℕ) (computePoint : ℕ → ℕ × ℕ × ℕ → Vec3)
    (edge : Edge) (idx : ℕ × ℕ × ℕ) (s : TessSt) : Option (ℕ × TessSt) :=
  match getConnectedEdges configs edge (bitsetForCell s.valueGrid idx) with
  | none => none
  | some es =>
    match assocFind s.vmap (es, idx) with
    | some i => some (i, s)
    | none => some (s.verts.length, { s with verts := s.verts ++ [computePoint es idx] })

/-- The `Err` branch of `tesselate`: clear `value_grid` and both mesh
lists (the bounding-box dilation is claim C7's concern). -/
def retryReset (s : TessSt) : TessSt := { s with valueGrid := [], verts := [], faces := [] }

/-- The start of the next `try_tesselate` pass: `edge_grid.clear()`. -/
def beginPass (s : TessSt) : TessSt := { s with edgeGrid := [] }

/-- Claim C1: two consecutive `lookup_cell_point` calls with the same
edge partition and cell index, starting from an empty tessellator state,
both miss — the second call appends a second copy of the vertex and
returns a different index, because the source never writes to
`vertex_map`.  This contradicts the documented cache behaviour. -/
theorem c1_lookup_appends_duplicate :
    lookupCellPoint (fun _ => [4095]) (fun _ _ => ⟨1 / 2, 1 / 2, 1 / 2⟩) Edge.A (1, 1, 1)
      ⟨[], [], [], [], []⟩ = some (0, ⟨[], [], [], [⟨1 / 2, 1 / 2, 1 / 2⟩], []⟩) ∧
    lookupCellPoint (fun _ => [4095]) (fun _ _ => ⟨1 / 2, 1 / 2, 1 / 2⟩) Edge.A (1, 1, 1)
      ⟨[], [], [], [⟨1 / 2, 1 / 2, 1 / 2⟩], []⟩ =
      some (1, ⟨[], [], [], [⟨1 / 2, 1 / 2, 1 / 2⟩, ⟨1 / 2, 1 / 2, 1 / 2⟩], []⟩) ∧
    (0 : ℕ) ≠ 1 := by
  refine ⟨?_, ?_, by norm_num⟩ <;>
    norm_num [lookupCellPoint, getConnectedEdges, bitsetForCell, gridAt, bitGet,
      edgeNum, assocFind, List.find?]

/-- Claim C9, counterexample: a vertex-cache entry present before the
retry reset is still present after it — the vertex cache is neither
cleared nor reconstructed between attempts. -/
theorem c9_cex :
    (beginPass (retryReset
      ⟨[[[1]]], [((Edge.A, (0, 0, 0)), ⟨⟨0, 0, 0⟩, ⟨1, 0, 0⟩⟩)],
       [((7, (1, 1, 1)), 0)], [⟨0, 0, 0⟩], [(0, 1, 2)]⟩)).vmap =
      [((7, (1, 1, 1)), 0)] ∧
    [((7, (1, 1, 1)), 0)] ≠ ([] : List ((ℕ × (ℕ × ℕ × ℕ)) × ℕ)) := by
  exact ⟨rfl, by simp⟩

/-- Claim C9, amended: the retry clears the value grid and the mesh, the
next pass starts by clearing the edge grid, and the vertex cache is left
untouched; but `lookup_cell_point` never inserts into the cache, so an
initially empty cache stays empty and no cache entries from a failed
attempt can survive. -/
theorem c9_state_reset (s : TessSt) (configs : ℕ → List ℕ)
    (computePoint : ℕ → ℕ × ℕ × ℕ → Vec3) (edge : Edge) (idx : ℕ × ℕ × ℕ) :
    (retryReset s).valueGrid = [] ∧ (retryReset s).verts = [] ∧
    (retryReset s).faces = [] ∧ (beginPass (retryReset s)).edgeGrid = [] ∧
    (beginPass (retryReset s)).vmap = s.vmap ∧
    (∀ i s', lookupCellPoint configs computePoint edge idx s = some (i, s') →
      s'.vmap = s.vmap) := by
  refine ⟨rfl, rfl, rfl, rfl, rfl, ?_⟩
  intro i s' h
  unfold lookupCellPoint at h
  cases hg : getConnectedEdges configs edge (bitsetForCell s.valueGrid idx) with
  | none => simp only [hg] at h; exact absurd h (by simp)
  | some es =>
    simp only [hg] at h
    cases ha : assocFind s.vmap (es, idx) with
    | some j =>
      simp only [ha] at h
      obtain ⟨-, rfl⟩ : j = i ∧ s = s' := by simpa using h
      rfl
    | none =>
      simp only [ha] at h
      obtain ⟨-, rfl⟩ : s.verts.length = i ∧
          ({ s with verts := s.verts ++ [computePoint es idx] } : TessSt) = s' := by
        simpa using h
      rfl

/-- Witness for `c9_state_reset`, discharging the cache-preservation
hypothesis on a concrete miss. -/
theorem c9_state_reset_witness :
    (⟨[], [], [], [⟨1 / 2, 1 / 2, 1 / 2⟩], []⟩ : TessSt).vmap =
      (⟨[], [], [], [], []⟩ : TessSt).vmap :=
  (c9_state_reset ⟨[], [], [], [], []⟩ (fun _ => [4095])
    (fun _ _ => ⟨1 / 2, 1 / 2, 1 / 2⟩) Edge.A (1, 1, 1)).2.2.2.2.2 0
    ⟨[], [], [], [⟨1 / 2, 1 / 2, 1 / 2⟩], []⟩
    (by norm_num [lookupCellPoint, getConnectedEdges, bitsetForCell, gridAt, bitGet,
      edgeNum, assocFind, List.find?])

/-- The padding computed by `tesselate`'s retry handler:
`res / (1 + |random|)`. -/
def paddingOf (res r : ℚ) : ℚ := res / (1 + |r|)

/-- Claim C7: for a random draw `r ∈ [0, 1)` (the range of
`rand::random::<f64>()`) and `res > 0`, the retry padding
`res / (1 + |r|)` lies in the half-open interval `(res/2, res]`. -/
theorem c7_padding_range {res r : ℚ} (h0 : 0 < res) (h1 : 0 ≤ r) (h2 : r < 1) :
    res / 2 < paddingOf res r ∧ paddingOf res r ≤ res := by
  unfold paddingOf
  rw [abs_of_nonneg h1]
  constructor
  · exact div_lt_div_of_pos_left h0 (by linarith) (by linarith)
  · exact div_le_self h0.le (by linarith)

/-- Witness for `c7_padding_range` at `res = 1`, `r = 1/2`. -/
theorem c7_padding_range_witness :
    (1 : ℚ) / 2 < paddingOf 1 (1 / 2) ∧ paddingOf 1 (1 / 2) ≤ 1 :=
  c7_padding_range (by norm_num) (by norm_num) (by norm_num)

/-- Witness for `findZero_correct`: a concrete linear field `v.x - 1/2`
on the unit edge; the secant step lands exactly on the zero at
`(1/2, 0, 0)` and the returned plane satisfies all three conclusions. -/
theorem findZero_correct_witness :
    onSeg ⟨0, 0, 0⟩ ⟨1, 0, 0⟩ (⟨⟨1 / 2, 0, 0⟩, ⟨1, 0, 0⟩⟩ : Plane).p ∧
    |(fun v : Vec3 => v.x - 1 / 2) (⟨⟨1 / 2, 0, 0⟩, ⟨1, 0, 0⟩⟩ : Plane).p| < 1 / 100 * 1 ∧
    (⟨⟨1 / 2, 0, 0⟩, ⟨1, 0, 0⟩⟩ : Plane).n =
      (fun _ : Vec3 => (⟨1, 0, 0⟩ : Vec3)) (⟨⟨1 / 2, 0, 0⟩, ⟨1, 0, 0⟩⟩ : Plane).p :=
  (findZero_correct (fun v : Vec3 => v.x - 1 / 2) (fun _ : Vec3 => (⟨1, 0, 0⟩ : Vec3))
    (by norm_num) 2 ⟨0, 0, 0⟩ (-(1 / 2)) ⟨1, 0, 0⟩ (1 / 2)
    (by norm_num) (by norm_num)
    (by norm_num [Vec3.mk.injEq])).2.2 ⟨⟨1 / 2, 0, 0⟩, ⟨1, 0, 0⟩⟩
    (by
      have habs : |(1 : ℚ) / 2| = 1 / 2 := by norm_num
      have hnn : (⟨0, 0, 0⟩ : Vec3) + ((1 : ℚ) / 2) • ((⟨1, 0, 0⟩ : Vec3) - ⟨0, 0, 0⟩) =
          ⟨1 / 2, 0, 0⟩ := by
        ext <;> simp
      norm_num [findZero, sgn, Vec3.mk.injEq, habs, hnn])
